import Mathlib

/-!
Verification of `anchor_drop` (kb_synch tool): a command-line utility that
inserts a uniquely-keyed comment marker at a given line of a source file and
appends a metadata record to a JSON ledger.

Strings are modelled as lists of characters (`Str`).  File-system effects are
modelled by an explicit `World` state: the target file's content and the
ledger file's content, the latter at the JSON-value level (serde_json's
text layer is abstracted: a file either is absent, holds invalid JSON, or
holds a JSON value).
-/

/-- Strings are modelled as lists of characters. -/
abbrev Str := List Char

/-- Coerce a Lean string literal into the model's string type. -/
def str (s : String) : Str := s.data

/-- Model of Rust's `str::split_inclusive('\n')`: split after every newline,
keeping the newline at the end of each segment; a trailing segment without a
newline is kept as-is; the empty string yields no segments. -/
def splitInclusiveNl : Str → List Str
  | [] => []
  | c :: cs =>
    if c = '\n' then [c] :: splitInclusiveNl cs
    else
      match splitInclusiveNl cs with
      | [] => [[c]]
      | l :: ls => (c :: l) :: ls

/-- `split_lines_preserve_newline` from the source: empty content gives an
empty vector, otherwise `split_inclusive('\n')`. -/
def split_lines_preserve_newline (content : Str) : List Str :=
  if content = [] then [] else splitInclusiveNl content

/-- Model of `Vec<String>::concat`: concatenate all segments. -/
def joinAll : List Str → Str
  | [] => []
  | l :: ls => l ++ joinAll ls

/-- Does the string end with a newline character? -/
def endsNl : Str → Bool
  | [] => false
  | [c] => c = '\n'
  | _ :: c :: cs => endsNl (c :: cs)

/-- Model of `Vec::insert(i, a)`: insert `a` so that it ends up at index `i`
(only used with `i ≤ length`, as the source checks bounds first). -/
def insertAt : Nat → α → List α → List α
  | 0, a, l => a :: l
  | _ + 1, a, [] => [a]
  | n + 1, a, x :: l => x :: insertAt n a l

/-- Number of newline characters in a string. -/
def nlCount (s : Str) : Nat := s.count '\n'

/-- A "full" line segment: nonempty, ends with a newline, and contains no
other newline.  Every non-final segment produced by the splitter is full. -/
def isFullSeg : Str → Bool
  | [] => false
  | [c] => decide (c = '\n')
  | c :: rest => decide (c ≠ '\n') && isFullSeg rest

/-- A segment that may appear last: nonempty and newline-free except possibly
for its final character. -/
def isTailSeg : Str → Bool
  | [] => false
  | [_] => true
  | c :: rest => decide (c ≠ '\n') && isTailSeg rest

/-- A list of segments is a valid segmentation: all segments before the last
are full, and the last is a valid tail segment. -/
def validSegs : List Str → Bool
  | [] => true
  | [s] => isTailSeg s
  | s :: rest => isFullSeg s && validSegs rest

-- ### Comment construction (`build_comment`, `comment_tokens`, `generate_key`)

/-- The final path component (model of Rust `Path::file_name`). -/
def file_name (p : Str) : Str := (p.reverse.takeWhile (fun c => c ≠ '/')).reverse

/-- Model of Rust `Path::extension`: the part of the file name after the last
dot; `none` when the name has no dot or when its only dot is the leading
character of a hidden file. -/
def extension (p : Str) : Option Str :=
  let r := (file_name p).reverse
  let e := r.takeWhile (fun c => c ≠ '.')
  if e.length = r.length then none
  else if e.length + 1 = r.length then none
  else some e.reverse

/-- The normalization `build_comment` applies to the extension before the
lookup: lowercase it and prepend a dot; an absent extension becomes the empty
string (Rust `map(|s| format!(".{}", s.to_lowercase())).unwrap_or_default()`). -/
def lowerExt : Option Str → Str
  | none => []
  | some s => '.' :: s.map Char.toLower

/-- `comment_tokens` from the source: map a normalized (dotted, lowercase)
extension to the comment delimiter pair. -/
def comment_tokens (ext : Str) : Str × Str :=
  if ext = str ".py" then (str "#", str "")
  else if ext = str ".js" ∨ ext = str ".ts" ∨ ext = str ".go" ∨ ext = str ".c" ∨
      ext = str ".cpp" ∨ ext = str ".java" ∨ ext = str ".rs" ∨ ext = str ".zig" then
    (str "//", str "")
  else if ext = str ".sql" then (str "--", str "")
  else if ext = str ".html" ∨ ext = str ".htm" then (str "<!--", str " -->")
  else (str "//", str "")

/-- The extension-to-delimiters map as the program applies it to a present
extension `e` (the composition of `build_comment`'s normalization with
`comment_tokens`). -/
def resolve_ext (e : Str) : Str × Str := comment_tokens ('.' :: e.map Char.toLower)

/-- `build_comment` from the source:
`format!("{prefix} CLAUDE_ANCHOR[key={key}] {desc}{suffix}\n")` with the
delimiters resolved from the path's extension. -/
def build_comment (path key desc : Str) : Str :=
  let pr := comment_tokens (lowerExt (extension path))
  pr.1 ++ str " CLAUDE_ANCHOR[key=" ++ key ++ str "] " ++ desc ++ pr.2 ++ ['\n']

/-- `generate_key` from the source: the first 8 characters of a freshly
generated UUID string (`uuid[..8]`); the UUID string is a parameter of the
model. -/
def generate_key (uuid : Str) : Str := uuid.take 8

-- ### Ledger data model and JSON serialization

/-- JSON values, at the level serde_json manipulates them (the concrete text
layer — whitespace, escaping — is abstracted away). -/
inductive Json where
  | jstr : Str → Json
  | jnum : Nat → Json
  | jarr : List Json → Json
  | jobj : List (String × Json) → Json

/-- `AnchorEntry` from the source: one inserted marker. -/
structure AnchorEntry where
  key : Str
  path : Str
  line : Nat
  kind : Str
  description : Str
  status : Str
  created : Str
deriving DecidableEq

/-- `AnchorsRecord` from the source: the ledger. -/
structure AnchorsRecord where
  version : Nat
  generated : Str
  anchors : List AnchorEntry
deriving DecidableEq

/-- `AnchorsRecord::new()`: version 1, current timestamp, no anchors. -/
def AnchorsRecord.new (now : Str) : AnchorsRecord := ⟨1, now, []⟩

/-- Serde serialization of an `AnchorEntry` (fields in declaration order). -/
def encodeEntry (e : AnchorEntry) : Json :=
  .jobj [("key", .jstr e.key), ("path", .jstr e.path), ("line", .jnum e.line),
    ("kind", .jstr e.kind), ("description", .jstr e.description),
    ("status", .jstr e.status), ("created", .jstr e.created)]

/-- Serde serialization of an `AnchorsRecord`. -/
def encodeRecord (r : AnchorsRecord) : Json :=
  .jobj [("version", .jnum r.version), ("generated", .jstr r.generated),
    ("anchors", .jarr (r.anchors.map encodeEntry))]

/-- Field lookup in a JSON object (serde deserializes structs by field name). -/
def lookupField : List (String × Json) → String → Option Json
  | [], _ => none
  | (k', v) :: rest, k => if k' = k then some v else lookupField rest k

/-- Deserialize a JSON value as a string. -/
def asStr : Json → Option Str
  | .jstr s => some s
  | _ => none

/-- Deserialize a JSON value as a bounded natural number (`u8`, `usize`). -/
def asNat (bound : Nat) : Json → Option Nat
  | .jnum n => if n < bound then some n else none
  | _ => none

/-- Deserialize a JSON value as an array. -/
def asArr : Json → Option (List Json)
  | .jarr l => some l
  | _ => none

/-- Serde deserialization of an `AnchorEntry`. -/
def decodeEntry (j : Json) : Option AnchorEntry :=
  match j with
  | .jobj fs => do
    let k ← lookupField fs "key" >>= asStr
    let p ← lookupField fs "path" >>= asStr
    let l ← lookupField fs "line" >>= asNat (2 ^ 64)
    let ki ← lookupField fs "kind" >>= asStr
    let d ← lookupField fs "description" >>= asStr
    let s ← lookupField fs "status" >>= asStr
    let c ← lookupField fs "created" >>= asStr
    pure ⟨k, p, l, ki, d, s, c⟩
  | _ => none

/-- Deserialize every element of a JSON array as an `AnchorEntry`. -/
def decodeEntries : List Json → Option (List AnchorEntry)
  | [] => some []
  | j :: rest => do
    let e ← decodeEntry j
    let es ← decodeEntries rest
    pure (e :: es)

/-- Serde deserialization of an `AnchorsRecord` (`serde_json::from_reader`). -/
def decodeRecord (j : Json) : Option AnchorsRecord :=
  match j with
  | .jobj fs => do
    let v ← lookupField fs "version" >>= asNat 256
    let g ← lookupField fs "generated" >>= asStr
    let a ← lookupField fs "anchors" >>= asArr
    let es ← decodeEntries a
    pure ⟨v, g, es⟩
  | _ => none

/-- The state of one file holding JSON: `none` = the file does not exist;
`some none` = it exists but its content is not valid JSON; `some (some j)` =
it exists and holds the JSON value `j`. -/
abbrev JsonFile := Option (Option Json)

/-- `load_record` from the source: absent file gives a fresh record; present
but unparseable (invalid JSON, or JSON of the wrong shape) gives a fresh
record and a warning (the boolean); a successfully parsed record is returned
unchanged.  None of these cases is a failure. -/
def load_record (file : JsonFile) (now : Str) : AnchorsRecord × Bool :=
  match file with
  | none => (AnchorsRecord.new now, false)
  | some none => (AnchorsRecord.new now, true)
  | some (some j) =>
    match decodeRecord j with
    | some r => (r, false)
    | none => (AnchorsRecord.new now, true)

/-- `write_record` from the source: the ledger file's state after the write
is exactly the serialization of the record, whatever was there before. -/
def write_record (r : AnchorsRecord) : JsonFile := some (some (encodeRecord r))

-- ### The command pipeline (`run`)

/-- The file-system state the tool touches: the target file's content (or
absence), whether `.claude/memory_anchors` exists, and the ledger file. -/
structure World where
  target : Option Str
  memoryDir : Bool
  ledger : JsonFile

/-- Parsed command-line arguments (`Args`). -/
structure RunArgs where
  file : Str
  line : Nat
  desc : Str
  kind : Option Str

/-- The messages the tool prints on standard output. -/
inductive Msg where
  | fileNotFound (path : Str)
  | invalidLine (line total : Nat)
  | invalidLedger
  | anchorDropped (key : Str) (path : Str) (line : Nat)
deriving DecidableEq

/-- Outcome of one invocation: final file-system state, exit status, output. -/
structure RunResult where
  world : World
  exitCode : Nat
  output : List Msg

/-- `run` from the source, on the paths free of I/O failure: validate the
target and the line bounds, insert the comment, rewrite the target, create
the ledger directory, load the ledger, append the entry, write the ledger.
The UUID string and the timestamp are parameters of the model. -/
def run (w : World) (args : RunArgs) (uuid now : Str) : RunResult :=
  let kind := args.kind.getD (str "line")
  match w.target with
  | none => ⟨w, 0, [.fileNotFound args.file]⟩
  | some content =>
    let lines := split_lines_preserve_newline content
    if args.line = 0 then ⟨w, 0, [.invalidLine args.line lines.length]⟩
    else if args.line > lines.length + 1 then ⟨w, 0, [.invalidLine args.line lines.length]⟩
    else
      let key := generate_key uuid
      let comment := build_comment args.file key args.desc
      let newLines := insertAt (args.line - 1) comment lines
      let w2 : World := ⟨some (joinAll newLines), true, w.ledger⟩
      let lr := load_record w2.ledger now
      let entry : AnchorEntry := ⟨key, args.file, args.line, kind, args.desc, str "active", now⟩
      let record2 : AnchorsRecord := ⟨lr.1.version, now, lr.1.anchors ++ [entry]⟩
      let w3 : World := ⟨w2.target, w2.memoryDir, write_record record2⟩
      ⟨w3, 0, (if lr.2 then [Msg.invalidLedger] else []) ++ [.anchorDropped key args.file args.line]⟩

/-- The table of §4.2 of the specification, written from the spec's words
(refinement target for the comment-syntax resolver): case-insensitive on the
bare extension. -/
def spec_resolver_table (e : Str) : Str × Str :=
  let l := e.map Char.toLower
  if l = str "py" then (str "#", str "")
  else if l = str "js" ∨ l = str "ts" ∨ l = str "go" ∨ l = str "c" ∨
      l = str "cpp" ∨ l = str "java" ∨ l = str "rs" ∨ l = str "zig" then
    (str "//", str "")
  else if l = str "sql" then (str "--", str "")
  else if l = str "html" ∨ l = str "htm" then (str "<!--", str " -->")
  else (str "//", str "")

-- ### Basic lemmas about the line splitter

theorem joinAll_append (a b : List Str) : joinAll (a ++ b) = joinAll a ++ joinAll b := by
  induction a with
  | nil => rfl
  | cons x xs ih => simp [joinAll, ih]

theorem joinAll_splitInclusiveNl (l : Str) : joinAll (splitInclusiveNl l) = l := by
  induction l with
  | nil => rfl
  | cons c cs ih =>
    by_cases h : c = '\n'
    · simp [splitInclusiveNl, h, joinAll, ih]
    · simp only [splitInclusiveNl, if_neg h]
      cases hs : splitInclusiveNl cs with
      | nil =>
        have : joinAll (splitInclusiveNl cs) = cs := ih
        rw [hs] at this
        simp [joinAll, ← this]
      | cons l ls =>
        have : joinAll (splitInclusiveNl cs) = cs := ih
        rw [hs] at this
        simp [joinAll, ← this, joinAll_append]

theorem splitInclusiveNl_nil_iff (l : Str) : splitInclusiveNl l = [] ↔ l = [] := by
  constructor
  · intro h
    have := joinAll_splitInclusiveNl l
    rw [h] at this
    simpa [joinAll] using this.symm
  · intro h; subst h; rfl

theorem split_lines_eq (content : Str) :
    split_lines_preserve_newline content = splitInclusiveNl content := by
  unfold split_lines_preserve_newline
  split
  · next h => subst h; rfl
  · rfl

-- ### Segment predicates

theorem isFullSeg_ne_nil {s : Str} (h : isFullSeg s = true) : s ≠ [] := by
  cases s with
  | nil => simp [isFullSeg] at h
  | cons c cs => simp

theorem isTailSeg_ne_nil {s : Str} (h : isTailSeg s = true) : s ≠ [] := by
  cases s with
  | nil => simp [isTailSeg] at h
  | cons c cs => simp

theorem isFullSeg_cons {c : Char} {l : Str} (hl : l ≠ []) :
    isFullSeg (c :: l) = (decide (c ≠ '\n') && isFullSeg l) := by
  cases l with
  | nil => exact absurd rfl hl
  | cons d ds => rfl

theorem isTailSeg_cons {c : Char} {l : Str} (hl : l ≠ []) :
    isTailSeg (c :: l) = (decide (c ≠ '\n') && isTailSeg l) := by
  cases l with
  | nil => exact absurd rfl hl
  | cons d ds => rfl

theorem isFullSeg_isTailSeg {s : Str} (h : isFullSeg s = true) : isTailSeg s = true := by
  induction s with
  | nil => simp [isFullSeg] at h
  | cons c cs ih =>
    cases cs with
    | nil => rfl
    | cons d ds =>
      rw [isFullSeg_cons (by simp)] at h
      rw [isTailSeg_cons (by simp)]
      simp only [Bool.and_eq_true] at h ⊢
      exact ⟨h.1, ih h.2⟩

theorem isFullSeg_decomp {s : Str} (h : isFullSeg s = true) :
    ∃ w, s = w ++ ['\n'] ∧ '\n' ∉ w := by
  induction s with
  | nil => simp [isFullSeg] at h
  | cons c cs ih =>
    cases cs with
    | nil =>
      simp only [isFullSeg, decide_eq_true_eq] at h
      exact ⟨[], by simp [h], by simp⟩
    | cons d ds =>
      rw [isFullSeg_cons (by simp)] at h
      simp only [Bool.and_eq_true, decide_eq_true_eq] at h
      obtain ⟨w, hw, hnw⟩ := ih h.2
      exact ⟨c :: w, by simp [hw], by simp [hnw, Ne.symm h.1]⟩

theorem isTailSeg_decomp {s : Str} (h : isTailSeg s = true) :
    ('\n' ∉ s ∧ s ≠ []) ∨ (∃ w, s = w ++ ['\n'] ∧ '\n' ∉ w) := by
  induction s with
  | nil => simp [isTailSeg] at h
  | cons c cs ih =>
    cases cs with
    | nil =>
      by_cases hc : c = '\n'
      · exact Or.inr ⟨[], by simp [hc], by simp⟩
      · exact Or.inl ⟨by simp [Ne.symm hc], by simp⟩
    | cons d ds =>
      rw [isTailSeg_cons (by simp)] at h
      simp only [Bool.and_eq_true, decide_eq_true_eq] at h
      rcases ih h.2 with ⟨hn, _⟩ | ⟨w, hw, hnw⟩
      · exact Or.inl ⟨by simp [hn, Ne.symm h.1], by simp⟩
      · exact Or.inr ⟨c :: w, by simp [hw], by simp [hnw, Ne.symm h.1]⟩

theorem isFullSeg_append_nl {w : Str} (h : '\n' ∉ w) : isFullSeg (w ++ ['\n']) = true := by
  induction w with
  | nil => rfl
  | cons c cs ih =>
    simp only [List.mem_cons, not_or] at h
    rw [List.cons_append, isFullSeg_cons (by simp)]
    simp only [Bool.and_eq_true, decide_eq_true_eq]
    exact ⟨fun hc => h.1 hc.symm, ih h.2⟩

theorem isTailSeg_no_nl {s : Str} (hn : '\n' ∉ s) (hne : s ≠ []) : isTailSeg s = true := by
  induction s with
  | nil => exact absurd rfl hne
  | cons c cs ih =>
    simp only [List.mem_cons, not_or] at hn
    cases cs with
    | nil => rfl
    | cons d ds =>
      rw [isTailSeg_cons (by simp)]
      simp only [Bool.and_eq_true, decide_eq_true_eq]
      exact ⟨fun hc => hn.1 hc.symm, ih hn.2 (by simp)⟩

theorem validSegs_cons {s : Str} {t : List Str} (ht : t ≠ []) :
    validSegs (s :: t) = (isFullSeg s && validSegs t) := by
  cases t with
  | nil => exact absurd rfl ht
  | cons u us => rfl

-- ### The splitter produces a valid segmentation

theorem validSegs_splitInclusiveNl (l : Str) : validSegs (splitInclusiveNl l) = true := by
  induction l with
  | nil => rfl
  | cons c cs ih =>
    by_cases hc : c = '\n'
    · simp only [splitInclusiveNl, if_pos hc]
      cases hs : splitInclusiveNl cs with
      | nil => subst hc; rfl
      | cons r rs =>
        rw [hs] at ih
        rw [validSegs_cons (by simp)]
        subst hc
        simp only [Bool.and_eq_true]
        exact ⟨by decide, ih⟩
    · simp only [splitInclusiveNl, if_neg hc]
      cases hs : splitInclusiveNl cs with
      | nil => rfl
      | cons r rs =>
        rw [hs] at ih
        have hr : r ≠ [] := by
          cases rs with
          | nil => exact isTailSeg_ne_nil (by simpa [validSegs] using ih)
          | cons r' rs' =>
            rw [validSegs_cons (by simp)] at ih
            simp only [Bool.and_eq_true] at ih
            exact isFullSeg_ne_nil ih.1
        cases rs with
        | nil =>
          have htail : isTailSeg r = true := by simpa [validSegs] using ih
          show isTailSeg (c :: r) = true
          rw [isTailSeg_cons hr]
          simp [htail, hc]
        | cons r' rs' =>
          rw [validSegs_cons (by simp)] at ih ⊢
          simp only [Bool.and_eq_true] at ih ⊢
          refine ⟨?_, ih.2⟩
          rw [isFullSeg_cons hr]
          simp [ih.1, hc]

-- ### Splitting a concatenation of valid segments recovers the segments

theorem splitInclusiveNl_no_nl {s : Str} (hn : '\n' ∉ s) (hne : s ≠ []) :
    splitInclusiveNl s = [s] := by
  induction s with
  | nil => exact absurd rfl hne
  | cons c cs ih =>
    simp only [List.mem_cons, not_or] at hn
    have hc : ¬ c = '\n' := fun h => hn.1 h.symm
    simp only [splitInclusiveNl, if_neg hc]
    cases cs with
    | nil => rfl
    | cons d ds => rw [ih hn.2 (by simp)]

theorem splitInclusiveNl_full_head {w : Str} (hn : '\n' ∉ w) (t : Str) :
    splitInclusiveNl (w ++ '\n' :: t) = (w ++ ['\n']) :: splitInclusiveNl t := by
  induction w with
  | nil => simp [splitInclusiveNl]
  | cons c cs ih =>
    simp only [List.mem_cons, not_or] at hn
    have hc : ¬ c = '\n' := fun h => hn.1 h.symm
    show splitInclusiveNl (c :: (cs ++ '\n' :: t)) = _
    have hne : splitInclusiveNl (cs ++ '\n' :: t) = (cs ++ ['\n']) :: splitInclusiveNl t :=
      ih hn.2
    simp only [splitInclusiveNl, if_neg hc, hne, List.cons_append]

theorem splitInclusiveNl_joinAll {ss : List Str} (h : validSegs ss = true) :
    splitInclusiveNl (joinAll ss) = ss := by
  induction ss with
  | nil => rfl
  | cons s rest ih =>
    cases rest with
    | nil =>
      have hs : isTailSeg s = true := by simpa [validSegs] using h
      simp only [joinAll, List.append_nil]
      rcases isTailSeg_decomp hs with ⟨hn, hne⟩ | ⟨w, hw, hnw⟩
      · exact splitInclusiveNl_no_nl hn hne
      · subst hw
        have := splitInclusiveNl_full_head hnw ([] : Str)
        simpa [splitInclusiveNl] using this
    | cons r rs =>
      rw [validSegs_cons (by simp)] at h
      simp only [Bool.and_eq_true] at h
      obtain ⟨w, hw, hnw⟩ := isFullSeg_decomp h.1
      subst hw
      simp only [joinAll, List.append_assoc, List.singleton_append]
      rw [splitInclusiveNl_full_head hnw, show r ++ joinAll rs = joinAll (r :: rs) from rfl,
        ih h.2]

-- ### Ends-with-newline and newline counts

theorem endsNl_cons {c : Char} {l : Str} (hl : l ≠ []) : endsNl (c :: l) = endsNl l := by
  cases l with
  | nil => exact absurd rfl hl
  | cons d ds => rfl

theorem endsNl_append {a b : Str} (hb : b ≠ []) : endsNl (a ++ b) = endsNl b := by
  induction a with
  | nil => rfl
  | cons c cs ih =>
    rw [List.cons_append, endsNl_cons, ih]
    intro hnil
    rcases List.append_eq_nil.mp hnil with ⟨_, h2⟩
    exact hb h2

theorem endsNl_snoc_nl (w : Str) : endsNl (w ++ ['\n']) = true := by
  rw [endsNl_append (by simp)]
  rfl

theorem isFullSeg_endsNl {s : Str} (h : isFullSeg s = true) : endsNl s = true := by
  obtain ⟨w, hw, _⟩ := isFullSeg_decomp h
  subst hw
  exact endsNl_snoc_nl w

theorem joinAll_ne_nil_of_mem_ne_nil {ss : List Str} {s : Str} (hs : s ∈ ss) (hne : s ≠ []) :
    joinAll ss ≠ [] := by
  induction ss with
  | nil => simp at hs
  | cons t ts ih =>
    rcases List.mem_cons.mp hs with h | h
    · subst h
      simp only [joinAll, ne_eq, List.append_eq_nil, not_and]
      intro hnil
      exact absurd hnil hne
    · have := ih h
      simp only [joinAll, ne_eq, List.append_eq_nil, not_and]
      intro _
      exact this

theorem nlCount_append (a b : Str) : nlCount (a ++ b) = nlCount a + nlCount b := by
  simp [nlCount, List.count_append]

theorem nlCount_eq_zero {s : Str} (h : '\n' ∉ s) : nlCount s = 0 := by
  simp [nlCount, List.count_eq_zero_of_not_mem h]

theorem nlCount_cons_ne {c : Char} (hc : ¬ c = '\n') (cs : Str) :
    nlCount (c :: cs) = nlCount cs := by
  simp [nlCount, List.count_cons, beq_iff_eq, Ne.symm hc]

theorem nlCount_cons_nl (cs : Str) : nlCount ('\n' :: cs) = nlCount cs + 1 := by
  simp [nlCount, List.count_cons]

-- ### Length of the splitting in terms of the newline count

theorem length_splitInclusiveNl (l : Str) :
    (splitInclusiveNl l).length =
      nlCount l + (if l = [] ∨ endsNl l = true then 0 else 1) := by
  induction l with
  | nil => rfl
  | cons c cs ih =>
    by_cases hc : c = '\n'
    · subst hc
      have hsplit : splitInclusiveNl ('\n' :: cs) = ['\n'] :: splitInclusiveNl cs := by
        simp [splitInclusiveNl]
      rw [hsplit, List.length_cons, ih, nlCount_cons_nl]
      cases cs with
      | nil => rfl
      | cons d ds =>
        cases he : endsNl (d :: ds) <;> simp [endsNl_cons, he]
    · cases hs : splitInclusiveNl cs with
      | nil =>
        have hcs : cs = [] := (splitInclusiveNl_nil_iff cs).mp hs
        subst hcs
        have hsplit : splitInclusiveNl [c] = [[c]] := by simp [splitInclusiveNl, if_neg hc]
        rw [hsplit]
        simp [nlCount, List.count_cons, beq_iff_eq, Ne.symm hc, endsNl, hc]
      | cons r rs =>
        have hcs : cs ≠ [] := by
          intro h
          rw [h] at hs
          simp [splitInclusiveNl] at hs
        have hsplit : splitInclusiveNl (c :: cs) = (c :: r) :: rs := by
          simp [splitInclusiveNl, if_neg hc, hs]
        have h2 := ih
        rw [hs] at h2
        rw [hsplit, nlCount_cons_ne hc]
        cases he : endsNl cs <;> simp [endsNl_cons, he, hcs] at h2 ⊢ <;> omega

-- ### Insertion lemmas

theorem insertAt_eq_take_drop {α : Type} (a : α) :
    ∀ (i : Nat) (l : List α), i ≤ l.length → insertAt i a l = l.take i ++ a :: l.drop i := by
  intro i
  induction i with
  | zero => intro l _; rfl
  | succ n ih =>
    intro l hl
    cases l with
    | nil => simp at hl
    | cons x xs =>
      simp only [insertAt, List.take_succ_cons, List.drop_succ_cons, List.cons_append,
        List.cons.injEq, true_and]
      exact ih xs (by simpa using hl)

theorem insertAt_ne_nil (i : Nat) (a : α) (l : List α) : insertAt i a l ≠ [] := by
  cases i with
  | zero => simp [insertAt]
  | succ n =>
    cases l with
    | nil => simp [insertAt]
    | cons x xs => simp [insertAt]

theorem length_insertAt {α : Type} {a : α} {i : Nat} {l : List α} (h : i ≤ l.length) :
    (insertAt i a l).length = l.length + 1 := by
  rw [insertAt_eq_take_drop a i l h]
  simp [List.length_take, List.length_drop]
  omega

-- ### Newline-terminated content splits into full segments only

theorem splitInclusiveNl_all_full {l : Str} (h : endsNl l = true) :
    ∀ s ∈ splitInclusiveNl l, isFullSeg s = true := by
  induction l with
  | nil => simp [endsNl] at h
  | cons c cs ih =>
    by_cases hc : c = '\n'
    · subst hc
      have hsplit : splitInclusiveNl ('\n' :: cs) = ['\n'] :: splitInclusiveNl cs := by
        simp [splitInclusiveNl]
      rw [hsplit]
      intro s hsmem
      rcases List.mem_cons.mp hsmem with h1 | h1
      · subst h1; rfl
      · cases cs with
        | nil => simp [splitInclusiveNl] at h1
        | cons d ds =>
          have hcs : endsNl (d :: ds) = true := by rwa [endsNl_cons (by simp)] at h
          exact ih hcs s h1
    · have hcs : cs ≠ [] := by
        intro hnil
        subst hnil
        simp [endsNl, hc] at h
      have hcs2 : endsNl cs = true := by rwa [endsNl_cons hcs] at h
      cases hs : splitInclusiveNl cs with
      | nil =>
        rw [(splitInclusiveNl_nil_iff cs).mp hs] at hcs
        exact absurd rfl hcs
      | cons r rs =>
        have hsplit : splitInclusiveNl (c :: cs) = (c :: r) :: rs := by
          simp [splitInclusiveNl, if_neg hc, hs]
        rw [hsplit]
        intro s hsmem
        have hall := ih hcs2
        rw [hs] at hall
        rcases List.mem_cons.mp hsmem with h1 | h1
        · subst h1
          have hr : isFullSeg r = true := hall r (by simp)
          rw [isFullSeg_cons (isFullSeg_ne_nil hr)]
          simp [hr, hc]
        · exact hall s (List.mem_cons_of_mem _ h1)

theorem validSegs_of_all_full {ss : List Str} (h : ∀ s ∈ ss, isFullSeg s = true) :
    validSegs ss = true := by
  induction ss with
  | nil => rfl
  | cons s rest ih =>
    cases rest with
    | nil =>
      show isTailSeg s = true
      exact isFullSeg_isTailSeg (h s (by simp))
    | cons r rs =>
      rw [validSegs_cons (by simp)]
      simp only [Bool.and_eq_true]
      exact ⟨h s (by simp), ih fun t ht => h t (List.mem_cons_of_mem _ ht)⟩

-- ### Inserting a full segment preserves segmentation validity

theorem validSegs_insertAt_lt {ss : List Str} {c : Str} {i : Nat} (hc : isFullSeg c = true)
    (hv : validSegs ss = true) (hi : i < ss.length) :
    validSegs (insertAt i c ss) = true := by
  induction ss generalizing i with
  | nil => simp at hi
  | cons s rest ih =>
    cases i with
    | zero =>
      show validSegs (c :: s :: rest) = true
      rw [validSegs_cons (by simp)]
      simp [hc, hv]
    | succ n =>
      show validSegs (s :: insertAt n c rest) = true
      have hn : n < rest.length := by simpa using hi
      have hrest : rest ≠ [] := by
        intro h
        rw [h] at hn
        simp at hn
      rw [validSegs_cons hrest] at hv
      simp only [Bool.and_eq_true] at hv
      rw [validSegs_cons (insertAt_ne_nil n c rest)]
      simp [hv.1, ih hv.2 hn]

theorem validSegs_insertAt_append {ss : List Str} {c : Str} (hc : isFullSeg c = true)
    (hall : ∀ s ∈ ss, isFullSeg s = true) :
    validSegs (insertAt ss.length c ss) = true := by
  induction ss with
  | nil =>
    show isTailSeg c = true
    exact isFullSeg_isTailSeg hc
  | cons s rest ih =>
    show validSegs (s :: insertAt rest.length c rest) = true
    rw [validSegs_cons (insertAt_ne_nil rest.length c rest)]
    simp only [Bool.and_eq_true]
    exact ⟨hall s (by simp), ih fun t ht => hall t (List.mem_cons_of_mem _ ht)⟩

-- ### The constructed comment is one full line

theorem comment_tokens_no_nl (ext : Str) :
    '\n' ∉ (comment_tokens ext).1 ∧ '\n' ∉ (comment_tokens ext).2 := by
  unfold comment_tokens
  split_ifs <;> exact ⟨by decide, by decide⟩

theorem build_comment_eq (path key desc : Str) :
    build_comment path key desc =
      (comment_tokens (lowerExt (extension path))).1 ++ str " CLAUDE_ANCHOR[key=" ++ key ++
        str "] " ++ desc ++ (comment_tokens (lowerExt (extension path))).2 ++ ['\n'] := rfl

theorem build_comment_full {path key desc : Str} (hk : '\n' ∉ key) (hd : '\n' ∉ desc) :
    isFullSeg (build_comment path key desc) = true := by
  rw [build_comment_eq]
  refine isFullSeg_append_nl ?_
  have h1 := comment_tokens_no_nl (lowerExt (extension path))
  simp only [List.mem_append, not_or]
  exact ⟨⟨⟨⟨⟨h1.1, by decide⟩, hk⟩, by decide⟩, hd⟩, h1.2⟩

theorem nlCount_build_comment {path key desc : Str} (hk : '\n' ∉ key) :
    nlCount (build_comment path key desc) = nlCount desc + 1 := by
  rw [build_comment_eq]
  simp only [nlCount_append]
  rw [nlCount_eq_zero (comment_tokens_no_nl (lowerExt (extension path))).1,
    nlCount_eq_zero (comment_tokens_no_nl (lowerExt (extension path))).2,
    nlCount_eq_zero hk]
  have h1 : nlCount (str " CLAUDE_ANCHOR[key=") = 0 := by decide
  have h2 : nlCount (str "] ") = 0 := by decide
  have h3 : nlCount ['\n'] = 1 := by decide
  rw [h1, h2, h3]
  omega

theorem generate_key_no_nl {uuid : Str} (h : '\n' ∉ uuid) : '\n' ∉ generate_key uuid :=
  fun hmem => h (List.take_subset _ _ hmem)

theorem build_comment_ne_nil (path key desc : Str) : build_comment path key desc ≠ [] := by
  rw [build_comment_eq]
  simp

-- ### Unfolding the pipeline

theorem run_not_found (w : World) (args : RunArgs) (uuid now : Str) (h : w.target = none) :
    run w args uuid now = ⟨w, 0, [Msg.fileNotFound args.file]⟩ := by
  unfold run
  rw [h]

theorem run_line_zero (w : World) (args : RunArgs) (uuid now : Str) (content : Str)
    (h : w.target = some content) (h0 : args.line = 0) :
    run w args uuid now =
      ⟨w, 0, [Msg.invalidLine args.line (split_lines_preserve_newline content).length]⟩ := by
  unfold run
  rw [h]
  simp [h0]

theorem run_line_high (w : World) (args : RunArgs) (uuid now : Str) (content : Str)
    (h : w.target = some content)
    (hgt : args.line > (split_lines_preserve_newline content).length + 1) :
    run w args uuid now =
      ⟨w, 0, [Msg.invalidLine args.line (split_lines_preserve_newline content).length]⟩ := by
  unfold run
  rw [h]
  have h0 : args.line ≠ 0 := by omega
  simp [h0, hgt]

theorem run_success (w : World) (args : RunArgs) (uuid now : Str) (content : Str)
    (h : w.target = some content) (h0 : args.line ≠ 0)
    (hle : args.line ≤ (split_lines_preserve_newline content).length + 1) :
    run w args uuid now =
      ⟨⟨some (joinAll (insertAt (args.line - 1)
            (build_comment args.file (generate_key uuid) args.desc)
            (split_lines_preserve_newline content))), true,
        write_record ⟨(load_record w.ledger now).1.version, now,
          (load_record w.ledger now).1.anchors ++
            [⟨generate_key uuid, args.file, args.line, args.kind.getD (str "line"),
              args.desc, str "active", now⟩]⟩⟩, 0,
        (if (load_record w.ledger now).2 then [Msg.invalidLedger] else []) ++
          [Msg.anchorDropped (generate_key uuid) args.file args.line]⟩ := by
  unfold run
  rw [h]
  have h2 : ¬ args.line > (split_lines_preserve_newline content).length + 1 := by omega
  simp [h0, h2]

-- ### Serialization round-trip

theorem decodeEntry_encodeEntry {e : AnchorEntry} (h : e.line < 2 ^ 64) :
    decodeEntry (encodeEntry e) = some e := by
  cases e with
  | mk k p l ki d s c =>
    simp only [AnchorEntry.line] at h
    simp [encodeEntry, decodeEntry, lookupField, asStr, asNat, h]
    rw [if_pos (show l < 18446744073709551616 by omega)]
    rfl

theorem decodeEntries_encode {l : List AnchorEntry} (h : ∀ e ∈ l, e.line < 2 ^ 64) :
    decodeEntries (l.map encodeEntry) = some l := by
  induction l with
  | nil => rfl
  | cons e es ih =>
    simp only [List.map_cons, decodeEntries]
    rw [decodeEntry_encodeEntry (h e (by simp)), ih fun t ht => h t (List.mem_cons_of_mem _ ht)]
    rfl

theorem decodeRecord_encodeRecord {r : AnchorsRecord} (hv : r.version < 256)
    (hl : ∀ e ∈ r.anchors, e.line < 2 ^ 64) :
    decodeRecord (encodeRecord r) = some r := by
  cases r with
  | mk v g a =>
    simp only [AnchorsRecord.version] at hv
    simp only [AnchorsRecord.anchors] at hl
    simp [encodeRecord, decodeRecord, lookupField, asStr, asNat, asArr, hv,
      decodeEntries_encode hl]

-- ### The resolver agrees with the specification table on bare extensions

/-- C5 (amended): the comment-syntax resolver, as the program applies it to a
present extension (lowercase, then prepend a dot, then look up), is
case-insensitive and agrees with the specification's table on every bare
(dotless) extension — `py` in any casing gives `("#", "")`, the `//` family
gives `("//", "")`, `sql` gives `("--", "")`, `html`/`htm` give
`("<!--", " -->")`, and anything else falls back to `("//", "")`; it never
fails.  An extension supplied *with* a leading dot is not recognized (see the
counterexample). -/
theorem resolve_ext_eq_table (e : Str) : resolve_ext e = spec_resolver_table e := by
  unfold resolve_ext comment_tokens spec_resolver_table
  simp only [show str ".py" = '.' :: str "py" from rfl,
    show str ".js" = '.' :: str "js" from rfl,
    show str ".ts" = '.' :: str "ts" from rfl,
    show str ".go" = '.' :: str "go" from rfl,
    show str ".c" = '.' :: str "c" from rfl,
    show str ".cpp" = '.' :: str "cpp" from rfl,
    show str ".java" = '.' :: str "java" from rfl,
    show str ".rs" = '.' :: str "rs" from rfl,
    show str ".zig" = '.' :: str "zig" from rfl,
    show str ".sql" = '.' :: str "sql" from rfl,
    show str ".html" = '.' :: str "html" from rfl,
    show str ".htm" = '.' :: str "htm" from rfl,
    List.cons.injEq, eq_self_iff_true, true_and]

-- ### Remaining helpers

theorem validSegs_dropLast {ss : List Str} (h : validSegs ss = true) :
    ∀ s ∈ ss.dropLast, isFullSeg s = true := by
  induction ss with
  | nil => simp
  | cons s rest ih =>
    cases rest with
    | nil => simp
    | cons r rs =>
      rw [validSegs_cons (by simp)] at h
      simp only [Bool.and_eq_true] at h
      intro t ht
      have ht' : t ∈ s :: (r :: rs).dropLast := by simpa using ht
      rcases List.mem_cons.mp ht' with h1 | h1
      · subst h1; exact h.1
      · exact ih h.2 t h1

theorem validSegs_last {init : List Str} {s : Str} (h : validSegs (init ++ [s]) = true) :
    isTailSeg s = true := by
  induction init with
  | nil => exact h
  | cons x xs ih =>
    rw [List.cons_append, validSegs_cons (by simp)] at h
    simp only [Bool.and_eq_true] at h
    exact ih h.2

theorem validSegs_mem_ne_nil {ss : List Str} (h : validSegs ss = true) {s : Str}
    (hs : s ∈ ss) : s ≠ [] := by
  induction ss with
  | nil => simp at hs
  | cons t ts ih =>
    cases ts with
    | nil =>
      have : s = t := by simpa using hs
      subst this
      exact isTailSeg_ne_nil h
    | cons r rs =>
      rw [validSegs_cons (by simp)] at h
      simp only [Bool.and_eq_true] at h
      rcases List.mem_cons.mp hs with h1 | h1
      · subst h1; exact isFullSeg_ne_nil h.1
      · exact ih h.2 h1

theorem mem_insertAt (i : Nat) (a : α) (l : List α) : a ∈ insertAt i a l := by
  induction i generalizing l with
  | zero => simp [insertAt]
  | succ n ih =>
    cases l with
    | nil => simp [insertAt]
    | cons x xs => exact List.mem_cons_of_mem x (ih xs)

theorem endsNl_build_comment (path key desc : Str) :
    endsNl (build_comment path key desc) = true := by
  rw [build_comment_eq]
  exact endsNl_snoc_nl _

-- ### Claims

/-- C5 counterexample: the claim says the resolver accepts the extension
with a leading dot as well; but for the input `".py"` (dot included) the
program's resolver falls back to `("//", "")` instead of `("#", "")`. -/
theorem c5_counterexample :
    resolve_ext (str ".py") = (str "//", str "") ∧
    resolve_ext (str ".py") ≠ (str "#", str "") := by decide

/-- C6: the line splitter yields segments each of which, except possibly the
last, ends with a newline; the last segment ends with a newline exactly when
the content does; empty content yields the empty sequence; and concatenating
all segments reproduces the content exactly. -/
theorem c6_splitter_contract (content : Str) :
    (∀ s ∈ (split_lines_preserve_newline content).dropLast, endsNl s = true) ∧
    (∀ s, (split_lines_preserve_newline content).getLast? = some s →
      endsNl s = endsNl content) ∧
    (content = [] → split_lines_preserve_newline content = []) ∧
    joinAll (split_lines_preserve_newline content) = content := by
  simp only [split_lines_eq]
  refine ⟨?_, ?_, ?_, joinAll_splitInclusiveNl content⟩
  · intro s hs
    exact isFullSeg_endsNl (validSegs_dropLast (validSegs_splitInclusiveNl content) s hs)
  · intro s hlast
    have hinit := List.dropLast_append_getLast? s (Option.mem_def.mpr hlast)
    have hv := validSegs_splitInclusiveNl content
    rw [← hinit] at hv
    have htail := validSegs_last hv
    have hne := isTailSeg_ne_nil htail
    have hj := joinAll_splitInclusiveNl content
    rw [← hinit, joinAll_append] at hj
    have hjs : joinAll [s] = s ++ [] := rfl
    rw [hjs, List.append_nil] at hj
    rw [← hj, endsNl_append hne]
  · intro h
    subst h
    rfl

/-- Witness for C6 at the concrete content `"a\nb"` (and `[]` for the
empty-content clause). -/
theorem c6_witness :
    endsNl (str "a" ++ ['\n']) = true ∧
    endsNl (str "b") = endsNl (str "a\nb") ∧
    split_lines_preserve_newline [] = [] ∧
    joinAll (split_lines_preserve_newline (str "a\nb")) = str "a\nb" :=
  ⟨(c6_splitter_contract (str "a\nb")).1 (str "a" ++ ['\n']) (by decide),
   (c6_splitter_contract (str "a\nb")).2.1 (str "b") (by decide),
   (c6_splitter_contract []).2.2.1 rfl,
   (c6_splitter_contract (str "a\nb")).2.2.2⟩

/-- C8: the constructed comment is exactly prefix, space,
`CLAUDE_ANCHOR[key=`, the key, `]`, space, description, suffix, newline;
and the generated key is exactly the first 8 characters of the freshly
generated UUID string (hence 8 characters long, a UUID string having at
least 8 characters). -/
theorem c8_comment_format (path key desc uuid : Str) :
    build_comment path key desc =
      (comment_tokens (lowerExt (extension path))).1 ++ str " CLAUDE_ANCHOR[key=" ++ key ++
        str "] " ++ desc ++ (comment_tokens (lowerExt (extension path))).2 ++ ['\n'] ∧
    (8 ≤ uuid.length → (generate_key uuid).length = 8 ∧ generate_key uuid = uuid.take 8) := by
  refine ⟨build_comment_eq path key desc, fun h => ⟨?_, rfl⟩⟩
  simp only [generate_key, List.length_take]
  omega

/-- Witness for C8 at a concrete path, key, description and UUID string. -/
theorem c8_witness :
    build_comment (str "a.py") (str "k1") (str "note") =
      (comment_tokens (lowerExt (extension (str "a.py")))).1 ++ str " CLAUDE_ANCHOR[key=" ++
        str "k1" ++ str "] " ++ str "note" ++
        (comment_tokens (lowerExt (extension (str "a.py")))).2 ++ ['\n'] ∧
    ((generate_key (str "123e4567-e89b-12d3")).length = 8 ∧
      generate_key (str "123e4567-e89b-12d3") = (str "123e4567-e89b-12d3").take 8) :=
  ⟨(c8_comment_format (str "a.py") (str "k1") (str "note") (str "123e4567-e89b-12d3")).1,
   (c8_comment_format (str "a.py") (str "k1") (str "note") (str "123e4567-e89b-12d3")).2
     (by decide)⟩

/-- C4: `load_record` returns a fresh empty record (version 1, current
timestamp, no anchors) when the ledger file does not exist; a fresh empty
record plus a warning when the file exists but does not parse as an
`AnchorsRecord`; and the deserialized record unchanged when parsing
succeeds.  In all three cases it returns normally (it is total). -/
theorem c4_load_record_cases (now : Str) (j : Json) :
    load_record none now = (AnchorsRecord.new now, false) ∧
    AnchorsRecord.new now = ⟨1, now, []⟩ ∧
    load_record (some none) now = (AnchorsRecord.new now, true) ∧
    (decodeRecord j = none → load_record (some (some j)) now = (AnchorsRecord.new now, true)) ∧
    (∀ r, decodeRecord j = some r → load_record (some (some j)) now = (r, false)) := by
  refine ⟨rfl, rfl, rfl, ?_, ?_⟩
  · intro h
    simp [load_record, h]
  · intro r h
    simp [load_record, h]

/-- Witness for C4: an unparseable ledger value (a bare number) is replaced
by a fresh record with a warning; a well-formed serialized record is
returned unchanged. -/
theorem c4_witness :
    load_record (some (some (Json.jnum 0))) (str "t") = (AnchorsRecord.new (str "t"), true) ∧
    load_record (some (some (encodeRecord (AnchorsRecord.new (str "t"))))) (str "t") =
      (AnchorsRecord.new (str "t"), false) :=
  ⟨(c4_load_record_cases (str "t") (Json.jnum 0)).2.2.2.1 rfl,
   (c4_load_record_cases (str "t") (encodeRecord (AnchorsRecord.new (str "t")))).2.2.2.2
     (AnchorsRecord.new (str "t")) (by decide)⟩

/-- C7: saving a record and loading it back yields an equivalent record —
the same version and the same anchors in the same order (indeed the very
same record, with no warning).  The two hypotheses state what the Rust
types `u8` and `usize` guarantee for every representable record. -/
theorem c7_save_load_roundtrip (r : AnchorsRecord) (now : Str) (hv : r.version < 256)
    (hl : ∀ e ∈ r.anchors, e.line < 2 ^ 64) :
    load_record (write_record r) now = (r, false) := by
  simp [write_record, load_record, decodeRecord_encodeRecord hv hl]

/-- Witness for C7 at a concrete one-entry record. -/
theorem c7_witness :
    load_record (write_record ⟨1, str "t1",
        [⟨str "k", str "p", 2, str "line", str "d", str "active", str "t0"⟩]⟩) (str "t2") =
      (⟨1, str "t1", [⟨str "k", str "p", 2, str "line", str "d", str "active", str "t0"⟩]⟩,
        false) :=
  c7_save_load_roundtrip _ _ (by decide) (by decide)

/-- C3: when the target file does not exist, or the line number is 0, or the
line number exceeds the line count plus one, the tool prints one
informational message, exits with status 0, and leaves the whole file-system
state (target file and ledger alike) unchanged. -/
theorem c3_invalid_input_no_op (w : World) (args : RunArgs) (uuid now : Str) :
    (w.target = none → run w args uuid now = ⟨w, 0, [Msg.fileNotFound args.file]⟩) ∧
    (∀ content, w.target = some content → args.line = 0 →
      run w args uuid now =
        ⟨w, 0, [Msg.invalidLine args.line (split_lines_preserve_newline content).length]⟩) ∧
    (∀ content, w.target = some content →
      args.line > (split_lines_preserve_newline content).length + 1 →
      run w args uuid now =
        ⟨w, 0, [Msg.invalidLine args.line (split_lines_preserve_newline content).length]⟩) :=
  ⟨run_not_found w args uuid now,
   fun content h h0 => run_line_zero w args uuid now content h h0,
   fun content h hgt => run_line_high w args uuid now content h hgt⟩

/-- Witness for C3: the three rejection cases at concrete inputs (absent
file; line 0; line 3 on a one-line file). -/
theorem c3_witness :
    run ⟨none, false, none⟩ ⟨str "a.py", 1, str "d", none⟩ (str "u") (str "t") =
      ⟨⟨none, false, none⟩, 0, [Msg.fileNotFound (str "a.py")]⟩ ∧
    run ⟨some (str "x"), false, none⟩ ⟨str "a.py", 0, str "d", none⟩ (str "u") (str "t") =
      ⟨⟨some (str "x"), false, none⟩, 0, [Msg.invalidLine 0 1]⟩ ∧
    run ⟨some (str "x"), false, none⟩ ⟨str "a.py", 3, str "d", none⟩ (str "u") (str "t") =
      ⟨⟨some (str "x"), false, none⟩, 0, [Msg.invalidLine 3 1]⟩ :=
  ⟨(c3_invalid_input_no_op ⟨none, false, none⟩ ⟨str "a.py", 1, str "d", none⟩ (str "u")
      (str "t")).1 rfl,
   (c3_invalid_input_no_op ⟨some (str "x"), false, none⟩ ⟨str "a.py", 0, str "d", none⟩
      (str "u") (str "t")).2.1 (str "x") rfl rfl,
   (c3_invalid_input_no_op ⟨some (str "x"), false, none⟩ ⟨str "a.py", 3, str "d", none⟩
      (str "u") (str "t")).2.2 (str "x") rfl (by decide)⟩

/-- C2: every successful invocation writes a ledger whose record has the old
entries unchanged, in order, followed by exactly one new entry whose path,
line, kind and description are the call inputs and whose status is
`"active"`; the entry count grows by one. -/
theorem c2_ledger_append (w : World) (args : RunArgs) (uuid now content : Str)
    (h : w.target = some content) (h0 : args.line ≠ 0)
    (hle : args.line ≤ (split_lines_preserve_newline content).length + 1) :
    ∃ r2 : AnchorsRecord,
      (run w args uuid now).world.ledger = some (some (encodeRecord r2)) ∧
      r2.anchors = (load_record w.ledger now).1.anchors ++
        [⟨generate_key uuid, args.file, args.line, args.kind.getD (str "line"),
          args.desc, str "active", now⟩] ∧
      r2.anchors.length = (load_record w.ledger now).1.anchors.length + 1 := by
  refine ⟨⟨(load_record w.ledger now).1.version, now,
    (load_record w.ledger now).1.anchors ++
      [⟨generate_key uuid, args.file, args.line, args.kind.getD (str "line"),
        args.desc, str "active", now⟩]⟩, ?_, rfl, by simp⟩
  rw [run_success w args uuid now content h h0 hle]
  rfl

/-- Witness for C2: dropping an anchor at line 1 of a one-line file with no
prior ledger appends exactly one active entry. -/
theorem c2_witness :
    ∃ r2 : AnchorsRecord,
      (run ⟨some (str "x\n"), false, none⟩ ⟨str "a.py", 1, str "d", none⟩
        (str "12345678-u") (str "t")).world.ledger = some (some (encodeRecord r2)) ∧
      r2.anchors = (load_record none (str "t")).1.anchors ++
        [⟨generate_key (str "12345678-u"), str "a.py", 1, str "line",
          str "d", str "active", str "t"⟩] ∧
      r2.anchors.length = (load_record none (str "t")).1.anchors.length + 1 :=
  c2_ledger_append ⟨some (str "x\n"), false, none⟩ ⟨str "a.py", 1, str "d", none⟩
    (str "12345678-u") (str "t") (str "x\n") rfl (by decide) (by decide)

/-- C9: the ledger-save step of every successful invocation creates the
ledger's parent directory and overwrites the ledger file so that afterwards
it holds exactly the serialization of the appended record — the previous
file content does not survive into the written bytes (the indented JSON text
layer is abstracted to the JSON value). -/
theorem c9_save_dir_and_overwrite (w : World) (args : RunArgs) (uuid now content : Str)
    (h : w.target = some content) (h0 : args.line ≠ 0)
    (hle : args.line ≤ (split_lines_preserve_newline content).length + 1) :
    (∀ r : AnchorsRecord, write_record r = some (some (encodeRecord r))) ∧
    (run w args uuid now).world.memoryDir = true ∧
    (run w args uuid now).world.ledger =
      write_record ⟨(load_record w.ledger now).1.version, now,
        (load_record w.ledger now).1.anchors ++
          [⟨generate_key uuid, args.file, args.line, args.kind.getD (str "line"),
            args.desc, str "active", now⟩]⟩ := by
  rw [run_success w args uuid now content h h0 hle]
  exact ⟨fun r => rfl, rfl, rfl⟩

/-- Witness for C9 at the same concrete invocation as the C2 witness, but
with a stale value already in the ledger file to show it is overwritten. -/
theorem c9_witness :
    (∀ r : AnchorsRecord, write_record r = some (some (encodeRecord r))) ∧
    (run ⟨some (str "x\n"), false, some (some (Json.jnum 7))⟩ ⟨str "a.py", 1, str "d", none⟩
      (str "12345678-u") (str "t")).world.memoryDir = true ∧
    (run ⟨some (str "x\n"), false, some (some (Json.jnum 7))⟩ ⟨str "a.py", 1, str "d", none⟩
      (str "12345678-u") (str "t")).world.ledger =
      write_record ⟨(load_record (some (some (Json.jnum 7))) (str "t")).1.version, str "t",
        (load_record (some (some (Json.jnum 7))) (str "t")).1.anchors ++
          [⟨generate_key (str "12345678-u"), str "a.py", 1, str "line",
            str "d", str "active", str "t"⟩]⟩ :=
  c9_save_dir_and_overwrite ⟨some (str "x\n"), false, some (some (Json.jnum 7))⟩
    ⟨str "a.py", 1, str "d", none⟩ (str "12345678-u") (str "t") (str "x\n") rfl
    (by decide) (by decide)

-- ### Core lemmas for the insertion claims

theorem split_insert_core {lines : List Str} {comment : Str} {i : Nat}
    (hv : validSegs lines = true) (hcom : isFullSeg comment = true) (hi : i ≤ lines.length)
    (hpos : i < lines.length ∨ (∀ s ∈ lines, isFullSeg s = true)) :
    splitInclusiveNl (joinAll (insertAt i comment lines)) = insertAt i comment lines := by
  rcases hpos with hlt | hall
  · exact splitInclusiveNl_joinAll (validSegs_insertAt_lt hcom hv hlt)
  · rcases Nat.lt_or_ge i lines.length with hlt | hge
    · exact splitInclusiveNl_joinAll (validSegs_insertAt_lt hcom hv hlt)
    · have hieq : i = lines.length := le_antisymm hi hge
      subst hieq
      exact splitInclusiveNl_joinAll (validSegs_insertAt_append hcom hall)

theorem length_split_joinAll_insert {lines : List Str} {comment : Str} {i : Nat}
    (hv : validSegs lines = true) (hi : i ≤ lines.length)
    (hc_ends : endsNl comment = true) (hc_ne : comment ≠ [])
    (hpos : i < lines.length ∨ endsNl (joinAll lines) = true ∨ lines = []) :
    (splitInclusiveNl (joinAll (insertAt i comment lines))).length =
      (splitInclusiveNl (joinAll lines)).length + nlCount comment := by
  have hins := insertAt_eq_take_drop comment i lines hi
  have hjoin : joinAll (insertAt i comment lines) =
      joinAll (lines.take i) ++ (comment ++ joinAll (lines.drop i)) := by
    rw [hins, joinAll_append]
    rfl
  have hsplitjoin : joinAll (lines.take i) ++ joinAll (lines.drop i) = joinAll lines := by
    rw [← joinAll_append, List.take_append_drop]
  have hcount : nlCount (joinAll (insertAt i comment lines)) =
      nlCount (joinAll lines) + nlCount comment := by
    rw [hjoin, nlCount_append, nlCount_append, ← hsplitjoin, nlCount_append]
    omega
  have hjne : joinAll (insertAt i comment lines) ≠ [] :=
    joinAll_ne_nil_of_mem_ne_nil (mem_insertAt i comment lines) hc_ne
  rw [length_splitInclusiveNl, length_splitInclusiveNl, hcount]
  rcases hpos with hlt | hnl | hnil
  · have hdropne : lines.drop i ≠ [] := by
      intro hd
      have hlen : (lines.drop i).length = lines.length - i := List.length_drop i lines
      rw [hd] at hlen
      simp at hlen
      omega
    obtain ⟨d, ds, hdds⟩ := List.exists_cons_of_ne_nil hdropne
    have hdmem : d ∈ lines := List.drop_subset i lines (by rw [hdds]; simp)
    have hdne : d ≠ [] := validSegs_mem_ne_nil hv hdmem
    have hjoindropne : joinAll (lines.drop i) ≠ [] := by
      rw [hdds]
      exact joinAll_ne_nil_of_mem_ne_nil (by simp) hdne
    have hcb : comment ++ joinAll (lines.drop i) ≠ [] :=
      fun hx => hjoindropne (List.append_eq_nil.mp hx).2
    have he1 : endsNl (joinAll (insertAt i comment lines)) = endsNl (joinAll (lines.drop i)) := by
      rw [hjoin, endsNl_append hcb, endsNl_append hjoindropne]
    have he2 : endsNl (joinAll lines) = endsNl (joinAll (lines.drop i)) := by
      rw [← hsplitjoin, endsNl_append hjoindropne]
    have hlne : joinAll lines ≠ [] := by
      rw [← hsplitjoin]
      exact fun hx => hjoindropne (List.append_eq_nil.mp hx).2
    simp only [he1, he2, hjne, hlne, false_or]
    cases hend : endsNl (joinAll (lines.drop i)) <;> simp [hend]
    omega
  · have hcpad : endsNl (joinAll (insertAt i comment lines)) = true := by
      by_cases hB : joinAll (lines.drop i) = []
      · rw [hjoin, hB, List.append_nil, endsNl_append hc_ne]
        exact hc_ends
      · have hcb : comment ++ joinAll (lines.drop i) ≠ [] :=
          fun hx => hB (List.append_eq_nil.mp hx).2
        rw [hjoin, endsNl_append hcb, endsNl_append hB,
          ← endsNl_append (a := joinAll (lines.take i)) hB, hsplitjoin]
        exact hnl
    simp [hcpad, hnl]
  · subst hnil
    have hi0 : i = 0 := by simpa using hi
    subst hi0
    simp [insertAt, joinAll, hc_ends]

/-- C1 counterexample: with target content `"abc"` (one line, no trailing
newline) and insertion at line 2 (= L + 1), the invocation succeeds but the
rewritten file has 1 line, not L + 1 = 2: the appended comment is glued onto
the unterminated last line. -/
theorem c1_counterexample :
    (run ⟨some (str "abc"), false, none⟩ ⟨str "a.c", 2, str "d", none⟩ (str "12345678-u")
      (str "t")).world.target =
      some (str "abc" ++ build_comment (str "a.c") (str "12345678") (str "d")) ∧
    (split_lines_preserve_newline
        (str "abc" ++ build_comment (str "a.c") (str "12345678") (str "d"))).length ≠
      (split_lines_preserve_newline (str "abc")).length + 1 := by decide

/-- C1 (amended): provided the description and the UUID string contain no
newline, and the insertion is not an append (`N = L + 1`) after a final line
that lacks its newline (i.e. `N ≤ L`, or the content is empty or
newline-terminated), a successful invocation rewrites the file to have
exactly L + 1 lines: lines 1..N-1 unchanged, line N exactly the constructed
comment, former lines N..L shifted down one position unchanged. -/
theorem c1_insert_amended (w : World) (args : RunArgs) (uuid now content : Str)
    (h : w.target = some content) (h1 : 1 ≤ args.line)
    (hle : args.line ≤ (split_lines_preserve_newline content).length + 1)
    (hdesc : '\n' ∉ args.desc) (huuid : '\n' ∉ uuid)
    (hpos : args.line ≤ (split_lines_preserve_newline content).length ∨
      content = [] ∨ endsNl content = true) :
    ∃ content', (run w args uuid now).world.target = some content' ∧
      split_lines_preserve_newline content' =
        (split_lines_preserve_newline content).take (args.line - 1) ++
          build_comment args.file (generate_key uuid) args.desc ::
            (split_lines_preserve_newline content).drop (args.line - 1) ∧
      (split_lines_preserve_newline content').length =
        (split_lines_preserve_newline content).length + 1 := by
  have h0 : args.line ≠ 0 := by omega
  rw [run_success w args uuid now content h h0 hle]
  have hv : validSegs (split_lines_preserve_newline content) = true := by
    rw [split_lines_eq]
    exact validSegs_splitInclusiveNl content
  have hi : args.line - 1 ≤ (split_lines_preserve_newline content).length := by omega
  have hcomfull : isFullSeg (build_comment args.file (generate_key uuid) args.desc) = true :=
    build_comment_full (generate_key_no_nl huuid) hdesc
  have hpos' : args.line - 1 < (split_lines_preserve_newline content).length ∨
      (∀ s ∈ split_lines_preserve_newline content, isFullSeg s = true) := by
    rcases hpos with hlt | hnil | hnl
    · exact Or.inl (by omega)
    · refine Or.inr ?_
      subst hnil
      intro s hs
      simp [split_lines_preserve_newline] at hs
    · refine Or.inr ?_
      rw [split_lines_eq]
      exact splitInclusiveNl_all_full hnl
  have hcore := split_insert_core hv hcomfull hi hpos'
  refine ⟨_, rfl, ?_, ?_⟩
  · rw [split_lines_eq, hcore,
      insertAt_eq_take_drop (build_comment args.file (generate_key uuid) args.desc)
        (args.line - 1) (split_lines_preserve_newline content) hi]
  · rw [split_lines_eq, hcore, length_insertAt hi]

/-- Witness for C1 (amended): inserting at line 2 of the two-line content
`"a\nb"` gives three lines with the comment second. -/
theorem c1_witness :
    ∃ content',
      (run ⟨some (str "a\nb"), false, none⟩ ⟨str "a.py", 2, str "d", none⟩ (str "12345678-u")
        (str "t")).world.target = some content' ∧
      split_lines_preserve_newline content' =
        (split_lines_preserve_newline (str "a\nb")).take 1 ++
          build_comment (str "a.py") (generate_key (str "12345678-u")) (str "d") ::
            (split_lines_preserve_newline (str "a\nb")).drop 1 ∧
      (split_lines_preserve_newline content').length =
        (split_lines_preserve_newline (str "a\nb")).length + 1 :=
  c1_insert_amended ⟨some (str "a\nb"), false, none⟩ ⟨str "a.py", 2, str "d", none⟩
    (str "12345678-u") (str "t") (str "a\nb") rfl (by decide) (by decide) (by decide)
    (by decide) (by decide)

/-- C10 counterexample: with target `"abc"` (one unterminated line, L = 1)
and a description holding one newline (k = 1), insertion at line 2 = L + 1
yields a 2-line file — an increase of 1, not 1 + k = 2, because the comment
is glued onto the unterminated last line. -/
theorem c10_counterexample :
    (run ⟨some (str "abc"), false, none⟩ ⟨str "a.c", 2, str "x\ny", none⟩ (str "12345678-u")
      (str "t")).world.target =
      some (str "abc" ++ build_comment (str "a.c") (str "12345678") (str "x\ny")) ∧
    nlCount (str "x\ny") = 1 ∧
    (split_lines_preserve_newline
        (str "abc" ++ build_comment (str "a.c") (str "12345678") (str "x\ny"))).length ≠
      (split_lines_preserve_newline (str "abc")).length + 1 + 1 := by decide

/-- C10 (amended): the description is embedded verbatim, so when it holds
k ≥ 1 newlines a successful invocation grows the target file by 1 + k lines
instead of 1 — provided the UUID string holds no newline and the insertion
is not an append after an unterminated final line (`N ≤ L`, or empty or
newline-terminated content); the ledger still gains exactly one entry. -/
theorem c10_multiline_desc (w : World) (args : RunArgs) (uuid now content : Str) (k : Nat)
    (h : w.target = some content) (h1 : 1 ≤ args.line)
    (hle : args.line ≤ (split_lines_preserve_newline content).length + 1)
    (hk : nlCount args.desc = k) (_hk1 : 1 ≤ k) (huuid : '\n' ∉ uuid)
    (hpos : args.line ≤ (split_lines_preserve_newline content).length ∨
      content = [] ∨ endsNl content = true) :
    ∃ content', (run w args uuid now).world.target = some content' ∧
      (split_lines_preserve_newline content').length =
        (split_lines_preserve_newline content).length + 1 + k ∧
      ∃ r2 : AnchorsRecord,
        (run w args uuid now).world.ledger = some (some (encodeRecord r2)) ∧
        r2.anchors.length = (load_record w.ledger now).1.anchors.length + 1 := by
  have h0 : args.line ≠ 0 := by omega
  rw [run_success w args uuid now content h h0 hle]
  refine ⟨_, rfl, ?_, ⟨_, rfl, by simp⟩⟩
  have hv : validSegs (splitInclusiveNl content) = true := validSegs_splitInclusiveNl content
  have hjoinlines : joinAll (splitInclusiveNl content) = content := joinAll_splitInclusiveNl content
  have hi : args.line - 1 ≤ (splitInclusiveNl content).length := by
    rw [← split_lines_eq]
    omega
  have hpos' : args.line - 1 < (splitInclusiveNl content).length ∨
      endsNl (joinAll (splitInclusiveNl content)) = true ∨ splitInclusiveNl content = [] := by
    rcases hpos with hlt | hnil | hnl
    · rw [split_lines_eq] at hlt
      exact Or.inl (by omega)
    · subst hnil
      exact Or.inr (Or.inr rfl)
    · rw [hjoinlines]
      exact Or.inr (Or.inl hnl)
  have hcore := length_split_joinAll_insert hv hi
    (endsNl_build_comment args.file (generate_key uuid) args.desc)
    (build_comment_ne_nil args.file (generate_key uuid) args.desc) hpos'
  rw [hjoinlines] at hcore
  simp only [split_lines_eq]
  rw [hcore, nlCount_build_comment (generate_key_no_nl huuid), hk]
  omega

/-- Witness for C10 (amended): a description with one newline inserted at
line 2 of the two-line content `"a\nb"` produces a four-line file and one
new ledger entry. -/
theorem c10_witness :
    ∃ content',
      (run ⟨some (str "a\nb"), false, none⟩ ⟨str "a.c", 2, str "x\ny", none⟩ (str "12345678-u")
        (str "t")).world.target = some content' ∧
      (split_lines_preserve_newline content').length =
        (split_lines_preserve_newline (str "a\nb")).length + 1 + 1 ∧
      ∃ r2 : AnchorsRecord,
        (run ⟨some (str "a\nb"), false, none⟩ ⟨str "a.c", 2, str "x\ny", none⟩
          (str "12345678-u") (str "t")).world.ledger = some (some (encodeRecord r2)) ∧
        r2.anchors.length = (load_record none (str "t")).1.anchors.length + 1 :=
  c10_multiline_desc ⟨some (str "a\nb"), false, none⟩ ⟨str "a.c", 2, str "x\ny", none⟩
    (str "12345678-u") (str "t") (str "a\nb") 1 rfl (by decide) (by decide) (by decide)
    (by decide) (by decide) (by decide)
